import Mathlib

/-!
Shallow embedding of the message-summary bot in src/bot.py.

Strings are modelled as lists of characters.  Python whitespace and the
regex classes \s, \S and \w are approximated by their ASCII behaviour
(Char.isWhitespace and Char.isAlphanum), which is faithful for every
string appearing in the claims.  The OpenAI call and the Telegram
send_message call are modelled as an environment: an oracle for the
text-generation service and a boolean saying whether the transport
delivers (a failing transport raises in Python, which the model renders
as an aborted run that leaves the accumulators untouched).
-/

/-- Shorthand turning a string literal into the list-of-characters model. -/
def cs (s : String) : List Char := s.toList

/-- Model of the Python whitespace test used by str.split and the regex class \s. -/
def isSpace (c : Char) : Bool := c.isWhitespace

/-- Model of the regex class \w (word characters). -/
def isWordChar (c : Char) : Bool := c.isAlphanum || c = '_'

/-- Maximal run of characters satisfying p, together with the remainder. -/
def takeRun (p : Char → Bool) : List Char → List Char × List Char
  | [] => ([], [])
  | c :: rest =>
      if p c then ((c :: (takeRun p rest).1), (takeRun p rest).2)
      else ([], c :: rest)

/-- Strips a literal from the front of the input, returning the remainder. -/
def stripLit : List Char → List Char → Option (List Char)
  | [], l => some l
  | _ :: _, [] => none
  | c :: cb, d :: ds => if c = d then stripLit cb ds else none

/-- Helper for splitWs accumulating the current word in reverse. -/
def splitWsAux (cur : List Char) : List Char → List (List Char)
  | [] => if cur = [] then [] else [cur.reverse]
  | c :: rest =>
      if isSpace c then
        if cur = [] then splitWsAux [] rest
        else cur.reverse :: splitWsAux [] rest
      else splitWsAux (c :: cur) rest

/-- Model of the Python str.split() with no argument: split on whitespace runs,
dropping empty pieces. -/
def splitWs (l : List Char) : List (List Char) := splitWsAux [] l

/-- Model of sep.join for list-of-characters strings. -/
def joinBy (sep : List Char) : List (List Char) → List Char
  | [] => []
  | [w] => w
  | w :: ws => w ++ sep ++ joinBy sep ws

/-- Model of the join with a single-space separator. -/
def joinSpace : List (List Char) → List Char := joinBy [' ']

/-- Decimal rendering of a natural number, as in the Python f-strings. -/
def natChars (n : Nat) : List Char := (Nat.repr n).toList

/-- Model of summarize_content in src/bot.py: the first 10 whitespace-separated
tokens of the description joined by single spaces. -/
def summarize_content (content : List Char) : List Char :=
  joinSpace ((splitWs content).take 10)

/-- Matching of the regex tail https?://S+ (S = non-whitespace, greedy), trying
the s variant first as the engine does.  Returns the matched url group and the
remainder of the input. -/
def parseUrl (l : List Char) : Option (List Char × List Char) :=
  match stripLit (cs "https://") l with
  | some rest =>
      if (takeRun (fun c => !(isSpace c)) rest).1 = [] then none
      else some (cs "https://" ++ (takeRun (fun c => !(isSpace c)) rest).1,
        (takeRun (fun c => !(isSpace c)) rest).2)
  | none =>
      match stripLit (cs "http://") l with
      | some rest =>
          if (takeRun (fun c => !(isSpace c)) rest).1 = [] then none
          else some (cs "http://" ++ (takeRun (fun c => !(isSpace c)) rest).1,
            (takeRun (fun c => !(isSpace c)) rest).2)
      | none => none

/-- Matching of the regex part after the first group: a space, then the group
at-sign word-plus, then space dash space, then the url group.  The word run is
maximal: shortening it would put a word character where the pattern requires a
space, so maximal munch is exact here.  Returns the handle group (with the
at-sign), the url group, and the remainder. -/
def parseAfterContent (l : List Char) : Option (List Char × List Char × List Char) :=
  match l with
  | ' ' :: '@' :: rest =>
      if (takeRun isWordChar rest).1 = [] then none
      else
        match (takeRun isWordChar rest).2 with
        | ' ' :: '-' :: ' ' :: rest3 =>
            match parseUrl rest3 with
            | some (url, rest4) => some ('@' :: (takeRun isWordChar rest).1, url, rest4)
            | none => none
        | _ => none
  | _ => none

/-- The lazy first group dot-plus at a fixed start position: content lengths are
tried in increasing order, never crossing a newline (dot does not match it). -/
def contentLoop (acc : List Char) : List Char → Option (List Char × List Char × List Char)
  | [] => none
  | c :: rest =>
      if c = '\n' then none
      else
        match parseAfterContent rest with
        | some (h, u, _) => some (acc ++ [c], h, u)
        | none => contentLoop (acc ++ [c]) rest

/-- Model of re.search for the pattern in extract_tweet_info: start positions are
tried left to right; at the first position admitting a match the lazy first
group takes its minimal length.  Returns the three captured groups. -/
def reSearch : List Char → Option (List Char × List Char × List Char)
  | [] => none
  | c :: rest =>
      match contentLoop [] (c :: rest) with
      | some r => some r
      | none => reSearch rest

/-- Model of extract_tweet_info in src/bot.py: on a regex match, the display
line built from the truncated title, handle and link, paired with the raw
content group; on no match, nothing (the Python code returns a None pair and
the caller tests truthiness, which coincides since a built display line is
never empty). -/
def extract_tweet_info (t : List Char) : Option (List Char × List Char) :=
  match reSearch t with
  | some (content, username, link) =>
      some (summarize_content content ++ cs " — " ++ username ++ cs " 🔗 (" ++ link ++ [')'],
            content)
  | none => none

/-- The fixed keyword vocabulary common_keywords in src/bot.py, in source order. -/
def common_keywords : List (List Char) :=
  [cs "AI", cs "比特幣", cs "加密", cs "ETH", cs "BTC", cs "Layer2"]

/-- Model of one Counter increment: an existing key is bumped in place, a new
key is appended at the end, exactly as a Python dict update behaves. -/
def incKey : List (List Char × Nat) → List Char → List (List Char × Nat)
  | [], k => [(k, 1)]
  | (w, n) :: rest, k =>
      if w = k then (w, n + 1) :: rest else (w, n) :: incKey rest k

/-- Count stored for a key, 0 when absent (Counter lookup semantics). -/
def countOf : List (List Char × Nat) → List Char → Nat
  | [], _ => 0
  | (w, n) :: rest, k => if w = k then n else countOf rest k

/-- Model of update_word_counter in src/bot.py: split the content on
whitespace and bump the counter for every token in the vocabulary. -/
def update_word_counter (ctr : List (List Char × Nat)) (content : List Char) :
    List (List Char × Nat) :=
  (splitWs content).foldl
    (fun c w => if w ∈ common_keywords then incKey c w else c) ctr

/-- The two process-wide accumulators of src/bot.py: the display lines and the
insertion-ordered keyword counter. -/
structure BotState where
  messages : List (List Char)
  word_counter : List (List Char × Nat)
deriving DecidableEq, Repr

/-- The empty accumulators at process start. -/
def initState : BotState := ⟨[], []⟩

/-- Model of handle_message in src/bot.py: messages from the configured group
that match the extractor append their display line and feed the raw content to
the keyword counter; everything else is ignored. -/
def handle_message (gid chat_id : Int) (text : List Char) (s : BotState) : BotState :=
  if chat_id = gid then
    match extract_tweet_info text with
    | some (summary, content) =>
        ⟨s.messages ++ [summary], update_word_counter s.word_counter content⟩
    | none => s
  else s

/-- Stable insertion of a counter entry into a descending-by-count list: the
entry goes after every earlier entry with a greater or equal count. -/
def insertDesc (x : List Char × Nat) : List (List Char × Nat) → List (List Char × Nat)
  | [] => [x]
  | y :: ys => if y.2 < x.2 then x :: y :: ys else y :: insertDesc x ys

/-- Stable descending sort by count, processing entries in counter order; this
is the documented ordering of Counter.most_common (equal counts keep the order
first encountered). -/
def sortDesc (l : List (List Char × Nat)) : List (List Char × Nat) :=
  l.foldl (fun acc x => insertDesc x acc) []

/-- Model of word_counter.most_common n. -/
def most_common (n : Nat) (ctr : List (List Char × Nat)) : List (List Char × Nat) :=
  (sortDesc ctr).take n

/-- The fixed fallback string returned by generate_summary on any exception. -/
def ai_fallback : List Char := cs "（摘要生成失敗）"

/-- The user prompt sent to the OpenAI chat call inside generate_summary. -/
def gen_prompt (text : List Char) : List Char :=
  cs "請為以下內容生成一個 50 字內的簡短摘要：\n" ++ text

/-- Python str.strip from the right. -/
def stripEnd (l : List Char) : List Char := (l.reverse.dropWhile isSpace).reverse

/-- Python str.strip on both ends. -/
def pyStrip (l : List Char) : List Char := stripEnd (l.dropWhile isSpace)

/-- The external text-generation service and the transport: the oracle maps the
submitted prompt to a response or an exception, and sendOk says whether the
Telegram send_message call succeeds (it raises otherwise). -/
structure Env where
  api : List Char → Except (List Char) (List Char)
  sendOk : Bool

/-- Model of generate_summary in src/bot.py: the stripped response on success,
the fixed fallback string when the call raises. -/
def generate_summary (api : List Char → Except (List Char) (List Char))
    (text : List Char) : List Char :=
  match api (gen_prompt text) with
  | Except.ok s => pyStrip s
  | Except.error _ => ai_fallback

/-- The numbered digest body built in send_summary: each stored display line
prefixed by its 1-based index, joined by newlines. -/
def summaryText (msgs : List (List Char)) : List Char :=
  joinBy [Char.ofNat 10] (msgs.enum.map (fun p => natChars (p.1 + 1) ++ cs ". " ++ p.2))

/-- The rendered top-3 keyword line of send_summary. -/
def mostCommonLine (ctr : List (List Char × Nat)) : List Char :=
  joinBy (cs ", ")
    ((most_common 3 ctr).map (fun p => p.1 ++ cs " 提到 " ++ natChars p.2 ++ cs " 次"))

/-- The composed daily report of send_summary for a given date and AI summary. -/
def summary_message (today : List Char) (s : BotState) (ai : List Char) : List Char :=
  cs "📢 " ++ today ++ cs " 今日摘要\n\n" ++ summaryText s.messages ++
  cs "\n\n▬▬\n\n• 總共 " ++ natChars s.messages.length ++
  cs " 則訊息，重複關鍵字為 " ++ mostCommonLine s.word_counter ++
  cs "\n\n📌 AI 總結: " ++ ai

/-- The fixed notice dispatched when no messages accumulated. -/
def no_msg_notice : List Char := cs "📢 今日無新訊息。"

/-- Observable outcome of one send_summary run: whether it returned normally
(false means the transport raised and the exception propagated), the
accumulator state afterwards, the texts successfully dispatched, and the texts
submitted to generate_summary. -/
structure RunResult where
  ok : Bool
  state : BotState
  sent : List (List Char)
  prompts : List (List Char)
deriving DecidableEq, Repr

/-- Model of send_summary in src/bot.py.  On the non-empty branch the digest
body is rendered, the AI summary is requested (its prompt is recorded), the
report is composed and dispatched, and only after a successful dispatch are
both accumulators cleared; a transport failure propagates before the clears
run.  On the empty branch only the fixed notice is dispatched and the state is
untouched. -/
def send_summary (env : Env) (today : List Char) (s : BotState) : RunResult :=
  match s.messages with
  | [] =>
      if env.sendOk then ⟨true, s, [no_msg_notice], []⟩
      else ⟨false, s, [], []⟩
  | _ :: _ =>
      let st := summaryText s.messages
      let ai := generate_summary env.api st
      let msg := summary_message today s ai
      if env.sendOk then ⟨true, initState, [msg], [st]⟩
      else ⟨false, s, [], [st]⟩

/-- One step of the running bot: either an inbound Telegram message is handled,
or a scheduled or manual report run executes in some environment. -/
inductive BotStep : BotState → BotState → Prop
  | msg (gid chat_id : Int) (text : List Char) (s : BotState) :
      BotStep s (handle_message gid chat_id text s)
  | report (env : Env) (today : List Char) (s : BotState) :
      BotStep s (send_summary env today s).state

/-- States reachable from process start by any sequence of steps. -/
def Reachable (s : BotState) : Prop := Relation.ReflTransGen BotStep initState s

/-- The shape of a url group match: an http or https scheme followed by a
non-empty run of non-whitespace characters. -/
def UrlShape (url : List Char) : Prop :=
  ∃ tail, (url = cs "http://" ++ tail ∨ url = cs "https://" ++ tail) ∧
    tail ≠ [] ∧ ∀ c ∈ tail, isSpace c = false

/-- Declarative characterisation of the inputs on which the pattern of
extract_tweet_info can match somewhere: a decomposition into an arbitrary
portion, a non-empty newline-free description, the space at-sign handle of
word characters, the space dash space separator, a url, and a remainder. -/
def HasMatch (t : List Char) : Prop :=
  ∃ pre content w url post,
    t = pre ++ content ++ [' ', '@'] ++ w ++ [' ', '-', ' '] ++ url ++ post ∧
    content ≠ [] ∧ (∀ c ∈ content, c ≠ '\n') ∧
    w ≠ [] ∧ (∀ c ∈ w, isWordChar c = true) ∧ UrlShape url

/-- Claim C1: if send_summary is invoked with a non-empty digest and the
dispatch of the final report raises a transport error, then the error
propagates and both accumulators are exactly as they were before the call. -/
theorem claim1_retry_safe (env : Env) (today : List Char) (s : BotState)
    (hne : s.messages ≠ []) (hfail : env.sendOk = false) :
    (send_summary env today s).state = s ∧ (send_summary env today s).ok = false := by
  rcases s with ⟨msgs, ctr⟩
  cases msgs with
  | nil => exact absurd rfl hne
  | cons m ms => simp [send_summary, hfail]

/-- Concrete instance of claim C1 at a one-message state with a failing transport. -/
theorem claim1_retry_safe_witness :
    ((⟨[cs "m"], [(cs "BTC", 1)]⟩ : BotState).messages ≠ [] ∧
      (⟨(fun _ => Except.ok []), false⟩ : Env).sendOk = false) ∧
    (send_summary ⟨(fun _ => Except.ok []), false⟩ (cs "d")
        ⟨[cs "m"], [(cs "BTC", 1)]⟩).state = ⟨[cs "m"], [(cs "BTC", 1)]⟩ ∧
    (send_summary ⟨(fun _ => Except.ok []), false⟩ (cs "d")
        ⟨[cs "m"], [(cs "BTC", 1)]⟩).ok = false :=
  ⟨⟨by decide, rfl⟩, claim1_retry_safe _ _ _ (by decide) rfl⟩

/-- Claim C2 as stated is false: in a state with an empty messages list but a
non-empty keyword counter, the run dispatches (the empty-digest notice) and
returns normally, yet the counter is not cleared on return. -/
theorem claim2_counterexample :
    (send_summary ⟨(fun _ => Except.ok []), true⟩ (cs "d")
        ⟨[], [(cs "BTC", 1)]⟩).ok = true ∧
    (send_summary ⟨(fun _ => Except.ok []), true⟩ (cs "d")
        ⟨[], [(cs "BTC", 1)]⟩).state.word_counter ≠ [] := by
  decide

/-- Claim C2 amended: for every state in which the keyword counter is empty
whenever the messages list is (the invariant of all reachable states), a
send_summary run whose dispatch succeeds returns with both accumulators
empty. -/
theorem claim2_atomic_reset (env : Env) (today : List Char) (s : BotState)
    (hok : env.sendOk = true) (hinv : s.messages = [] → s.word_counter = []) :
    (send_summary env today s).state.messages = [] ∧
    (send_summary env today s).state.word_counter = [] := by
  rcases s with ⟨msgs, ctr⟩
  cases msgs with
  | nil =>
      refine ⟨by simp [send_summary, hok], ?_⟩
      have : ctr = [] := hinv rfl
      simp [send_summary, hok, this]
  | cons m ms => simp [send_summary, hok, initState]

/-- Concrete instance of claim C2 amended after one successful report on a
one-message state. -/
theorem claim2_atomic_reset_witness :
    ((⟨(fun _ => Except.ok []), true⟩ : Env).sendOk = true ∧
      ((⟨[cs "m"], [(cs "BTC", 1)]⟩ : BotState).messages = [] →
        (⟨[cs "m"], [(cs "BTC", 1)]⟩ : BotState).word_counter = [])) ∧
    (send_summary ⟨(fun _ => Except.ok []), true⟩ (cs "d")
        ⟨[cs "m"], [(cs "BTC", 1)]⟩).state.messages = [] ∧
    (send_summary ⟨(fun _ => Except.ok []), true⟩ (cs "d")
        ⟨[cs "m"], [(cs "BTC", 1)]⟩).state.word_counter = [] :=
  ⟨⟨rfl, by decide⟩, claim2_atomic_reset _ _ _ rfl (by decide)⟩

/-- Claim C4 as stated is false: after accumulating the message whose raw
content is the plain description, the text submitted to the Summarizer is the
numbered display line, not the raw content body. -/
theorem claim4_counterexample :
    (send_summary ⟨(fun _ => Except.ok []), true⟩ (cs "d")
        (handle_message 1 1 (cs "Bitcoin is pumping @cryptoguy - https://x.com/abc")
          initState)).prompts =
      [cs "1. Bitcoin is pumping — @cryptoguy 🔗 (https://x.com/abc)"] ∧
    (send_summary ⟨(fun _ => Except.ok []), true⟩ (cs "d")
        (handle_message 1 1 (cs "Bitcoin is pumping @cryptoguy - https://x.com/abc")
          initState)).prompts ≠
      [cs "Bitcoin is pumping"] := by
  decide

/-- Claim C4 amended: for every non-empty accumulation period, the text
submitted to the Summarizer is the rendered digest body, that is the stored
display lines prefixed by their 1-based index and joined by newlines (and the
external call wraps it in the fixed instruction, see gen_prompt). -/
theorem claim4_prompt (env : Env) (today : List Char) (s : BotState)
    (hne : s.messages ≠ []) :
    (send_summary env today s).prompts = [summaryText s.messages] ∧
    summaryText s.messages =
      joinBy [Char.ofNat 10]
        (s.messages.enum.map (fun p => natChars (p.1 + 1) ++ cs ". " ++ p.2)) := by
  refine ⟨?_, rfl⟩
  rcases s with ⟨msgs, ctr⟩
  cases msgs with
  | nil => exact absurd rfl hne
  | cons m ms =>
      by_cases h : env.sendOk <;> simp [send_summary, h]

/-- Concrete instance of claim C4 amended at a one-message state. -/
theorem claim4_prompt_witness :
    (⟨[cs "line"], []⟩ : BotState).messages ≠ [] ∧
    (send_summary ⟨(fun _ => Except.ok []), true⟩ (cs "d")
        ⟨[cs "line"], []⟩).prompts = [summaryText [cs "line"]] ∧
    summaryText [cs "line"] =
      joinBy [Char.ofNat 10]
        ([cs "line"].enum.map (fun p => natChars (p.1 + 1) ++ cs ". " ++ p.2)) :=
  ⟨by decide, claim4_prompt ⟨(fun _ => Except.ok []), true⟩ (cs "d") ⟨[cs "line"], []⟩ (by decide)⟩

/-- Claim C5: with no messages accumulated and a working transport, two
successive send_summary runs each dispatch exactly the fixed notice, submit
nothing to the Summarizer, return normally, and leave the state unchanged, so
the second run behaves identically to the first. -/
theorem claim5_empty_idempotent (env : Env) (t1 t2 : List Char) (s : BotState)
    (hm : s.messages = []) (hok : env.sendOk = true) :
    (send_summary env t1 s).ok = true ∧
    (send_summary env t1 s).sent = [no_msg_notice] ∧
    (send_summary env t1 s).prompts = [] ∧
    (send_summary env t1 s).state = s ∧
    (send_summary env t2 (send_summary env t1 s).state).ok = true ∧
    (send_summary env t2 (send_summary env t1 s).state).sent = [no_msg_notice] ∧
    (send_summary env t2 (send_summary env t1 s).state).prompts = [] ∧
    (send_summary env t2 (send_summary env t1 s).state).state = s := by
  rcases s with ⟨msgs, ctr⟩
  simp only [BotState.mk.injEq] at hm ⊢
  cases msgs with
  | nil => simp [send_summary, hok]
  | cons m ms => simp at hm

/-- Concrete instance of claim C5 from the initial state. -/
theorem claim5_empty_idempotent_witness :
    (initState.messages = [] ∧ (⟨(fun _ => Except.ok []), true⟩ : Env).sendOk = true) ∧
    (send_summary ⟨(fun _ => Except.ok []), true⟩ (cs "d1") initState).sent = [no_msg_notice] ∧
    (send_summary ⟨(fun _ => Except.ok []), true⟩ (cs "d2")
        (send_summary ⟨(fun _ => Except.ok []), true⟩ (cs "d1") initState).state).sent =
      [no_msg_notice] :=
  ⟨⟨rfl, rfl⟩,
    (claim5_empty_idempotent ⟨(fun _ => Except.ok []), true⟩ (cs "d1") (cs "d2")
        initState rfl rfl).2.1,
    (claim5_empty_idempotent ⟨(fun _ => Except.ok []), true⟩ (cs "d1") (cs "d2")
        initState rfl rfl).2.2.2.2.2.1⟩

/-- Claim C6: when the external text-generation call raises, generate_summary
returns the fixed fallback marker instead of propagating the failure, and a
send_summary run with a working transport still returns normally and
dispatches the composed report, which contains the fallback text. -/
theorem claim6_fallback (env : Env) (today : List Char) (s : BotState) (e : List Char)
    (hne : s.messages ≠ []) (hok : env.sendOk = true)
    (hfail : env.api (gen_prompt (summaryText s.messages)) = Except.error e) :
    generate_summary env.api (summaryText s.messages) = ai_fallback ∧
    (send_summary env today s).ok = true ∧
    (send_summary env today s).sent = [summary_message today s ai_fallback] ∧
    ∃ pre, summary_message today s ai_fallback = pre ++ ai_fallback := by
  have hgen : generate_summary env.api (summaryText s.messages) = ai_fallback := by
    simp [generate_summary, hfail]
  refine ⟨hgen, ?_, ?_, ?_⟩
  · rcases s with ⟨msgs, ctr⟩
    cases msgs with
    | nil => exact absurd rfl hne
    | cons m ms => simp [send_summary, hok]
  · rcases s with ⟨msgs, ctr⟩
    cases msgs with
    | nil => exact absurd rfl hne
    | cons m ms => simp [send_summary, hok, hgen]
  · exact ⟨cs "📢 " ++ today ++ cs " 今日摘要\n\n" ++ summaryText s.messages ++
      cs "\n\n▬▬\n\n• 總共 " ++ natChars s.messages.length ++
      cs " 則訊息，重複關鍵字為 " ++ mostCommonLine s.word_counter ++
      cs "\n\n📌 AI 總結: ", rfl⟩

/-- Concrete instance of claim C6 with an always-failing Summarizer. -/
theorem claim6_fallback_witness :
    ((⟨[cs "m"], []⟩ : BotState).messages ≠ [] ∧
      (⟨(fun _ => Except.error (cs "boom")), true⟩ : Env).api
          (gen_prompt (summaryText [cs "m"])) = Except.error (cs "boom")) ∧
    generate_summary (fun _ => Except.error (cs "boom")) (summaryText [cs "m"]) = ai_fallback ∧
    (send_summary ⟨(fun _ => Except.error (cs "boom")), true⟩ (cs "d")
        ⟨[cs "m"], []⟩).sent =
      [summary_message (cs "d") ⟨[cs "m"], []⟩ ai_fallback] :=
  ⟨⟨by decide, rfl⟩,
    (claim6_fallback ⟨(fun _ => Except.error (cs "boom")), true⟩ (cs "d")
        ⟨[cs "m"], []⟩ (cs "boom") (by decide) rfl rfl).1,
    (claim6_fallback ⟨(fun _ => Except.error (cs "boom")), true⟩ (cs "d")
        ⟨[cs "m"], []⟩ (cs "boom") (by decide) rfl rfl).2.2.1⟩

lemma countOf_incKey (ctr : List (List Char × Nat)) (w k : List Char) :
    countOf (incKey ctr w) k = countOf ctr k + (if w = k then 1 else 0) := by
  induction ctr with
  | nil => by_cases h : w = k <;> simp [incKey, countOf, h]
  | cons p rest ih =>
      rcases p with ⟨a, n⟩
      by_cases haw : a = w
      · subst haw
        by_cases hak : a = k
        · subst hak; simp [incKey, countOf]
        · simp [incKey, countOf, hak]
      · by_cases hak : a = k
        · have hwk : ¬ w = k := fun h => haw (hak.trans h.symm)
          have hkw : ¬ k = w := fun h => hwk h.symm
          simp [incKey, countOf, haw, hak, hwk, hkw]
        · simp [incKey, countOf, haw, hak, ih]

lemma countOf_update_tokens (ws : List (List Char)) :
    ∀ (ctr : List (List Char × Nat)) (k : List Char),
      countOf (ws.foldl (fun c w => if w ∈ common_keywords then incKey c w else c) ctr) k =
        countOf ctr k + (if k ∈ common_keywords then ws.count k else 0) := by
  induction ws with
  | nil => intro ctr k; simp
  | cons w ws ih =>
      intro ctr k
      simp only [List.foldl_cons]
      rw [ih]
      by_cases hw : w ∈ common_keywords
      · simp only [hw, if_pos, countOf_incKey]
        by_cases hk : k ∈ common_keywords
        · by_cases hwk : w = k
          · subst hwk
            simp [hk, List.count_cons]
            omega
          · have hkw : ¬ k = w := fun h => hwk h.symm
            have hkwb : (k == w) = false := beq_eq_false_iff_ne.mpr hkw
            simp [hk, List.count_cons, hkwb, hwk]
        · have hwk : ¬ w = k := fun h => hk (h ▸ hw)
          simp [hk, hwk]
      · simp only [hw, if_neg, ite_false]
        by_cases hk : k ∈ common_keywords
        · have hkw : ¬ k = w := fun h => hw (h ▸ hk)
          have hwk : ¬ w = k := fun h => hkw h.symm
          have hkwb : (k == w) = false := beq_eq_false_iff_ne.mpr hkw
          simp [hk, List.count_cons, hkwb, hwk]
        · simp [hk]

/-- Claim C9: for every counter state and raw content, the keyword accumulator
adds to a vocabulary entry exactly the number of whitespace-separated tokens
equal to it, keys outside the vocabulary are never touched, empty input is a
no-op, and in particular the content BTC to the moon BTC bumps BTC by 2. -/
theorem claim9_keyword_counts :
    (∀ (ctr : List (List Char × Nat)) (content k : List Char),
      countOf (update_word_counter ctr content) k =
        countOf ctr k + (if k ∈ common_keywords then (splitWs content).count k else 0)) ∧
    (∀ ctr : List (List Char × Nat), update_word_counter ctr [] = ctr) ∧
    countOf (update_word_counter [] (cs "BTC to the moon BTC")) (cs "BTC") = 2 := by
  refine ⟨?_, ?_, by decide⟩
  · intro ctr content k
    exact countOf_update_tokens (splitWs content) ctr k
  · intro ctr
    rfl

lemma chain_insertDesc (x : List Char × Nat) (l : List (List Char × Nat))
    (h : List.Chain' (fun a b : List Char × Nat => b.2 ≤ a.2) l) :
    List.Chain' (fun a b : List Char × Nat => b.2 ≤ a.2) (insertDesc x l) := by
  induction l with
  | nil => simp [insertDesc]
  | cons y ys ih =>
      by_cases hy : y.2 < x.2
      · simp only [insertDesc, if_pos hy]
        exact List.chain'_cons.mpr ⟨hy.le, h⟩
      · simp only [insertDesc, if_neg hy]
        have hins := ih h.tail
        cases ys with
        | nil =>
            simp only [insertDesc]
            exact List.chain'_cons.mpr ⟨Nat.le_of_not_lt hy, List.chain'_singleton x⟩
        | cons z zs =>
            by_cases hz : z.2 < x.2
            · simp only [insertDesc, if_pos hz] at hins ⊢
              exact List.chain'_cons.mpr ⟨Nat.le_of_not_lt hy, hins⟩
            · simp only [insertDesc, if_neg hz] at hins ⊢
              exact List.chain'_cons.mpr ⟨(List.chain'_cons.mp h).1, hins⟩

lemma chain_sortDescAux (l : List (List Char × Nat)) :
    ∀ acc, List.Chain' (fun a b : List Char × Nat => b.2 ≤ a.2) acc →
      List.Chain' (fun a b : List Char × Nat => b.2 ≤ a.2)
        (l.foldl (fun a x => insertDesc x a) acc) := by
  induction l with
  | nil => intro acc h; simpa using h
  | cons x l ih =>
      intro acc h
      simpa using ih _ (chain_insertDesc x acc h)

lemma sortDesc_chain (l : List (List Char × Nat)) :
    List.Chain' (fun a b : List Char × Nat => b.2 ≤ a.2) (sortDesc l) :=
  chain_sortDescAux l [] (by simp)

lemma chain_head_bound (y : List Char × Nat) (ys : List (List Char × Nat))
    (h : List.Chain' (fun a b : List Char × Nat => b.2 ≤ a.2) (y :: ys)) :
    ∀ p ∈ ys, p.2 ≤ y.2 := by
  induction ys generalizing y with
  | nil => simp
  | cons z zs ih =>
      intro p hp
      have h1 : z.2 ≤ y.2 := (List.chain'_cons.mp h).1
      rcases List.mem_cons.mp hp with rfl | hp2
      · exact h1
      · exact le_trans (ih z (List.chain'_cons.mp h).2 p hp2) h1

lemma filter_eq_nil_of_lt (c : Nat) (y : List Char × Nat) (ys : List (List Char × Nat))
    (h : List.Chain' (fun a b : List Char × Nat => b.2 ≤ a.2) (y :: ys)) (hy : y.2 < c) :
    (y :: ys).filter (fun p => p.2 == c) = [] := by
  rw [List.filter_eq_nil_iff]
  intro p hp
  rcases List.mem_cons.mp hp with rfl | hp2
  · simp [Nat.ne_of_lt hy]
  · have := chain_head_bound y ys h p hp2
    have : p.2 < c := lt_of_le_of_lt this hy
    simp [Nat.ne_of_lt this]

lemma filter_insertDesc (x : List Char × Nat) (l : List (List Char × Nat)) (c : Nat)
    (h : List.Chain' (fun a b : List Char × Nat => b.2 ≤ a.2) l) :
    (insertDesc x l).filter (fun p => p.2 == c) =
      if x.2 = c then l.filter (fun p => p.2 == c) ++ [x]
      else l.filter (fun p => p.2 == c) := by
  induction l with
  | nil => by_cases hx : x.2 = c <;> simp [insertDesc, hx]
  | cons y ys ih =>
      by_cases hy : y.2 < x.2
      · simp only [insertDesc, if_pos hy]
        by_cases hx : x.2 = c
        · have hnil : (y :: ys).filter (fun p => p.2 == c) = [] :=
            filter_eq_nil_of_lt c y ys h (hx ▸ hy)
          simp [List.filter_cons, hx, hnil]
        · simp only [List.filter_cons]
          simp [hx]
      · simp only [insertDesc, if_neg hy]
        have hih := ih h.tail
        by_cases hx : x.2 = c <;> by_cases hyc : y.2 = c <;>
          simp [List.filter_cons, hx, hyc, hih]

lemma filter_sortDescAux (l : List (List Char × Nat)) :
    ∀ (acc : List (List Char × Nat)) (c : Nat),
      List.Chain' (fun a b : List Char × Nat => b.2 ≤ a.2) acc →
      (l.foldl (fun a x => insertDesc x a) acc).filter (fun p => p.2 == c) =
        acc.filter (fun p => p.2 == c) ++ l.filter (fun p => p.2 == c) := by
  induction l with
  | nil => intro acc c _; simp
  | cons x l ih =>
      intro acc c h
      simp only [List.foldl_cons]
      rw [ih _ c (chain_insertDesc x acc h), filter_insertDesc x acc c h]
      by_cases hx : x.2 = c <;> simp [List.filter_cons, hx, List.append_assoc]

lemma filter_sortDesc (l : List (List Char × Nat)) (c : Nat) :
    (sortDesc l).filter (fun p => p.2 == c) = l.filter (fun p => p.2 == c) := by
  have := filter_sortDescAux l [] c (by simp)
  simpa [sortDesc] using this

/-- Claim C3 as stated is false: accumulating contents in which BTC is seen
before AI (counts AI 3, BTC 3, ETH 1) makes most_common list BTC first, so the
rendered order follows arrival order, not the vocabulary order that would put
AI first. -/
theorem claim3_counterexample :
    (let s := handle_message 1 1 (cs "ETH @a - http://x")
        (handle_message 1 1 (cs "AI AI AI @a - http://x")
          (handle_message 1 1 (cs "BTC BTC BTC @a - http://x") initState))
     countOf s.word_counter (cs "AI") = 3 ∧ countOf s.word_counter (cs "BTC") = 3 ∧
     countOf s.word_counter (cs "ETH") = 1 ∧
     most_common 3 s.word_counter ≠ [(cs "AI", 3), (cs "BTC", 3), (cs "ETH", 1)] ∧
     mostCommonLine s.word_counter =
       cs "BTC 提到 3 次, AI 提到 3 次, ETH 提到 1 次") := by
  decide

/-- Claim C3 amended: the top-3 keyword list is descending in count, and ties
are broken by the order the keywords were first inserted into the counter
(first seen in the raw contents), not by the vocabulary registration order:
for every count value the entries carrying it appear in sortDesc exactly in
counter order. -/
theorem claim3_order (ctr : List (List Char × Nat)) :
    List.Chain' (fun a b : List Char × Nat => b.2 ≤ a.2) (most_common 3 ctr) ∧
    ∀ c : Nat, (sortDesc ctr).filter (fun p => p.2 == c) =
      ctr.filter (fun p => p.2 == c) :=
  ⟨(sortDesc_chain ctr).take 3, fun c => filter_sortDesc ctr c⟩

lemma splitWsAux_word (w : List Char) (hw : ∀ c ∈ w, isSpace c = false) :
    ∀ (cur rest : List Char), splitWsAux cur (w ++ rest) = splitWsAux (w.reverse ++ cur) rest := by
  induction w with
  | nil => intro cur rest; simp
  | cons c w ih =>
      intro cur rest
      have hc : isSpace c = false := hw c (List.mem_cons_self c w)
      have hw2 : ∀ d ∈ w, isSpace d = false := fun d hd => hw d (List.mem_cons_of_mem c hd)
      have step : splitWsAux cur ((c :: w) ++ rest) = splitWsAux (c :: cur) (w ++ rest) := by
        simp [splitWsAux, hc]
      rw [step, ih hw2 (c :: cur) rest]
      simp [List.append_assoc]

lemma splitWs_joinSpace (ws : List (List Char))
    (h : ∀ w ∈ ws, w ≠ [] ∧ ∀ c ∈ w, isSpace c = false) :
    splitWs (joinSpace ws) = ws := by
  induction ws with
  | nil => rfl
  | cons w ws ih =>
      obtain ⟨hw1, hw2⟩ := h w (List.mem_cons_self w ws)
      have hrev : w.reverse ≠ [] := by simpa using hw1
      cases ws with
      | nil =>
          show splitWsAux [] (joinBy [' '] [w]) = [w]
          simp only [joinBy]
          have : (w : List Char) = w ++ [] := by simp
          rw [this, splitWsAux_word w hw2 [] []]
          simp [splitWsAux, hrev]
      | cons w2 ws2 =>
          show splitWsAux [] (joinBy [' '] (w :: w2 :: ws2)) = w :: w2 :: ws2
          simp only [joinBy]
          rw [List.append_assoc, List.singleton_append,
            splitWsAux_word w hw2 [] (' ' :: joinBy [' '] (w2 :: ws2))]
          have hsp : isSpace ' ' = true := rfl
          simp only [splitWsAux, hsp, if_true, List.append_nil, hrev, if_false,
            List.reverse_reverse]
          have := ih (fun u hu => h u (List.mem_cons_of_mem w hu))
          simpa [splitWs, joinSpace] using this

/-- Claim C8 as stated is false: the description with two spaces between its
tokens is a matched description (shown through the extractor), has at most 10
tokens, yet the title is the whitespace-normalised join, not the description
string itself. -/
theorem claim8_counterexample :
    extract_tweet_info (cs "a  b @c - http://d") =
      some (cs "a b — @c 🔗 (http://d)", cs "a  b") ∧
    (splitWs (cs "a  b")).length ≤ 10 ∧
    summarize_content (cs "a  b") ≠ cs "a  b" := by
  decide

/-- Claim C8 amended: the title is always the first 10 whitespace-separated
tokens of the description joined by single spaces; hence for a description
whose tokens are separated by single spaces (no leading, trailing or doubled
whitespace) and number at most 10, the title equals the description. -/
theorem claim8_title (ws : List (List Char))
    (h : ∀ w ∈ ws, w ≠ [] ∧ ∀ c ∈ w, isSpace c = false) :
    summarize_content (joinSpace ws) = joinSpace (ws.take 10) ∧
    (ws.length ≤ 10 → summarize_content (joinSpace ws) = joinSpace ws) := by
  have hs : splitWs (joinSpace ws) = ws := splitWs_joinSpace ws h
  constructor
  · simp [summarize_content, hs]
  · intro hle
    simp [summarize_content, hs, List.take_of_length_le hle]

/-- Concrete instance of claim C8 amended: a fifteen-token description is
titled by exactly its first ten tokens. -/
theorem claim8_title_witness :
    (∀ w ∈ [cs "t1", cs "t2", cs "t3", cs "t4", cs "t5", cs "t6", cs "t7", cs "t8",
        cs "t9", cs "t10", cs "t11", cs "t12", cs "t13", cs "t14", cs "t15"],
      w ≠ [] ∧ ∀ c ∈ w, isSpace c = false) ∧
    summarize_content (joinSpace [cs "t1", cs "t2", cs "t3", cs "t4", cs "t5", cs "t6",
        cs "t7", cs "t8", cs "t9", cs "t10", cs "t11", cs "t12", cs "t13", cs "t14",
        cs "t15"]) =
      joinSpace ([cs "t1", cs "t2", cs "t3", cs "t4", cs "t5", cs "t6", cs "t7", cs "t8",
        cs "t9", cs "t10", cs "t11", cs "t12", cs "t13", cs "t14", cs "t15"].take 10) :=
  ⟨by decide, (claim8_title _ (by decide)).1⟩

lemma incKey_pos (ctr : List (List Char × Nat)) (k : List Char)
    (h : ∀ p ∈ ctr, 0 < p.2) : ∀ p ∈ incKey ctr k, 0 < p.2 := by
  induction ctr with
  | nil => intro p hp; simp [incKey] at hp; subst hp; simp
  | cons q rest ih =>
      rcases q with ⟨a, n⟩
      intro p hp
      by_cases hak : a = k
      · simp only [incKey, if_pos hak] at hp
        rcases List.mem_cons.mp hp with rfl | hp2
        · simp
        · exact h p (List.mem_cons_of_mem _ hp2)
      · simp only [incKey, if_neg hak] at hp
        rcases List.mem_cons.mp hp with rfl | hp2
        · exact h (a, n) (List.mem_cons_self _ _)
        · exact ih (fun q hq => h q (List.mem_cons_of_mem _ hq)) p hp2

lemma update_word_counter_pos (content : List Char) :
    ∀ ctr, (∀ p ∈ ctr, 0 < p.2) → ∀ p ∈ update_word_counter ctr content, 0 < p.2 := by
  unfold update_word_counter
  generalize splitWs content = ws
  induction ws with
  | nil => intro ctr h; simpa using h
  | cons w ws ih =>
      intro ctr h
      simp only [List.foldl_cons]
      by_cases hw : w ∈ common_keywords
      · simp only [hw, if_pos]
        exact ih _ (incKey_pos ctr w h)
      · simp only [hw, if_neg, ite_false]
        exact ih _ h

lemma send_summary_state_cases (env : Env) (today : List Char) (s : BotState) :
    (send_summary env today s).state = s ∨ (send_summary env today s).state = initState := by
  rcases s with ⟨msgs, ctr⟩
  cases msgs with
  | nil => by_cases h : env.sendOk <;> simp [send_summary, h]
  | cons m ms =>
      by_cases h : env.sendOk
      · right; simp [send_summary, h]
      · left; simp [send_summary, h]

/-- Claim C10: in every state reachable by any sequence of inbound-message
handling and report runs, every keyword in the counter has a strictly positive
count, and whenever the messages list is empty the keyword counter is empty
too. -/
theorem claim10_invariant (s : BotState) (h : Reachable s) :
    (∀ p ∈ s.word_counter, 0 < p.2) ∧ (s.messages = [] → s.word_counter = []) := by
  induction h with
  | refl => exact ⟨by simp [initState], fun _ => rfl⟩
  | @tail b c hr step ih =>
      cases step with
      | msg gid chat_id text =>
          unfold handle_message
          by_cases hcg : chat_id = gid
          · simp only [hcg, if_pos]
            cases hext : extract_tweet_info text with
            | none => simpa using ih
            | some pr =>
                rcases pr with ⟨summary, content⟩
                refine ⟨?_, ?_⟩
                · exact update_word_counter_pos content b.word_counter ih.1
                · intro habs
                  simp at habs
          · simpa [hcg] using ih
      | report env today =>
          rcases send_summary_state_cases env today b with heq | heq
          · rw [heq]; exact ih
          · rw [heq]; exact ⟨by simp [initState], fun _ => rfl⟩

/-- Concrete instance of claim C10 at the reachable initial state. -/
theorem claim10_invariant_witness :
    Reachable initState ∧
    (∀ p ∈ initState.word_counter, 0 < p.2) ∧
    (initState.messages = [] → initState.word_counter = []) :=
  ⟨Relation.ReflTransGen.refl, claim10_invariant initState Relation.ReflTransGen.refl⟩

lemma takeRun_spec (p : Char → Bool) (l : List Char) :
    (takeRun p l).1 ++ (takeRun p l).2 = l ∧ ∀ c ∈ (takeRun p l).1, p c = true := by
  induction l with
  | nil => simp [takeRun]
  | cons c rest ih =>
      by_cases hc : p c
      · simp only [takeRun, if_pos hc]
        refine ⟨by simp [ih.1], ?_⟩
        intro d hd
        rcases List.mem_cons.mp hd with rfl | hd2
        · exact hc
        · exact ih.2 d hd2
      · simp [takeRun, hc]

lemma stripLit_eq (pre : List Char) :
    ∀ (l rest : List Char), stripLit pre l = some rest → l = pre ++ rest := by
  induction pre with
  | nil =>
      intro l rest h
      simp only [stripLit, Option.some.injEq] at h
      simp [h]
  | cons c cb ih =>
      intro l rest h
      cases l with
      | nil => simp [stripLit] at h
      | cons d ds =>
          by_cases hcd : c = d
          · subst hcd
            simp only [stripLit, if_pos rfl] at h
            simp [ih ds rest h]
          · simp [stripLit, hcd] at h

lemma parseUrl_sound (l url rest : List Char) (h : parseUrl l = some (url, rest)) :
    l = url ++ rest ∧ UrlShape url := by
  unfold parseUrl at h
  split at h
  · rename_i r1 heq
    split at h
    · exact absurd h (by simp)
    · rename_i hne
      simp only [Option.some.injEq, Prod.mk.injEq] at h
      obtain ⟨hu, hr⟩ := h
      have hl : l = cs "https://" ++ r1 := stripLit_eq _ _ _ heq
      have hsp := takeRun_spec (fun c => !(isSpace c)) r1
      constructor
      · rw [hl, ← hu, ← hr, List.append_assoc, hsp.1]
      · refine ⟨(takeRun (fun c => !(isSpace c)) r1).1, Or.inr hu.symm, hne, ?_⟩
        intro c hc
        simpa using hsp.2 c hc
  · rename_i heq1
    split at h
    · rename_i r1 heq
      split at h
      · exact absurd h (by simp)
      · rename_i hne
        simp only [Option.some.injEq, Prod.mk.injEq] at h
        obtain ⟨hu, hr⟩ := h
        have hl : l = cs "http://" ++ r1 := stripLit_eq _ _ _ heq
        have hsp := takeRun_spec (fun c => !(isSpace c)) r1
        constructor
        · rw [hl, ← hu, ← hr, List.append_assoc, hsp.1]
        · refine ⟨(takeRun (fun c => !(isSpace c)) r1).1, Or.inl hu.symm, hne, ?_⟩
          intro c hc
          simpa using hsp.2 c hc
    · exact absurd h (by simp)

lemma parseAfterContent_sound (l hh uu rest : List Char)
    (h : parseAfterContent l = some (hh, uu, rest)) :
    ∃ w, hh = '@' :: w ∧ w ≠ [] ∧ (∀ c ∈ w, isWordChar c = true) ∧ UrlShape uu ∧
      l = [' ', '@'] ++ w ++ [' ', '-', ' '] ++ uu ++ rest := by
  unfold parseAfterContent at h
  split at h
  · rename_i rest0
    split at h
    · exact absurd h (by simp)
    · rename_i hne
      split at h
      · rename_i rest3 heq2
        split at h
        · rename_i url rest4 hurl
          simp only [Option.some.injEq, Prod.mk.injEq] at h
          obtain ⟨hh1, hu1, hr1⟩ := h
          obtain ⟨hl3, hshape⟩ := parseUrl_sound rest3 url rest4 hurl
          have hsp := takeRun_spec isWordChar rest0
          refine ⟨(takeRun isWordChar rest0).1, hh1.symm, hne,
            (fun c hc => hsp.2 c hc), hu1 ▸ hshape, ?_⟩
          have hrest0 : rest0 =
              (takeRun isWordChar rest0).1 ++ (' ' :: '-' :: ' ' :: rest3) := by
            rw [← heq2, hsp.1]
          conv_lhs => rw [hrest0]
          rw [hl3, hu1, hr1]
          simp
        · exact absurd h (by simp)
      · exact absurd h (by simp)
  · exact absurd h (by simp)

lemma contentLoop_sound (l : List Char) :
    ∀ (acc cont hh uu : List Char), contentLoop acc l = some (cont, hh, uu) →
      ∃ d w url rest4, cont = acc ++ d ∧ d ≠ [] ∧ (∀ c ∈ d, c ≠ '\n') ∧
        hh = '@' :: w ∧ w ≠ [] ∧ (∀ c ∈ w, isWordChar c = true) ∧ UrlShape uu ∧
        uu = url ∧
        l = d ++ [' ', '@'] ++ w ++ [' ', '-', ' '] ++ url ++ rest4 := by
  induction l with
  | nil => intro acc cont hh uu h; simp [contentLoop] at h
  | cons c rest ih =>
      intro acc cont hh uu h
      unfold contentLoop at h
      split at h
      · exact absurd h (by simp)
      · rename_i hc
        split at h
        · rename_i h1 u1 r1 hpa
          simp only [Option.some.injEq, Prod.mk.injEq] at h
          obtain ⟨hcont, hh1, hu1⟩ := h
          obtain ⟨w, hw1, hw2, hw3, hshape, hldec⟩ :=
            parseAfterContent_sound rest h1 u1 r1 hpa
          refine ⟨[c], w, u1, r1, hcont.symm, by simp, ?_, hh1 ▸ hw1, hw2, hw3,
            hu1 ▸ hshape, hu1.symm, ?_⟩
          · intro d hd
            rcases List.mem_cons.mp hd with rfl | hd2
            · exact hc
            · simp at hd2
          · rw [hldec]
            simp
        · rename_i hpa
          obtain ⟨d, w, url, rest4, hcont, hd, hdc, hhw, hw, hwc, hshape, huu, hldec⟩ :=
            ih (acc ++ [c]) cont hh uu h
          refine ⟨c :: d, w, url, rest4, ?_, by simp, ?_, hhw, hw, hwc, hshape, huu, ?_⟩
          · rw [hcont]; simp
          · intro e he
            rcases List.mem_cons.mp he with rfl | he2
            · exact hc
            · exact hdc e he2
          · rw [hldec]
            simp

lemma reSearch_sound (t : List Char) :
    ∀ r : List Char × List Char × List Char, reSearch t = some r → HasMatch t := by
  induction t with
  | nil => intro r h; simp [reSearch] at h
  | cons c rest ih =>
      intro r h
      unfold reSearch at h
      split at h
      · rename_i r0 hcl
        rcases r0 with ⟨cont, hh, uu⟩
        obtain ⟨d, w, url, rest4, hcont, hd, hdc, hhw, hw, hwc, hshape, huu, hldec⟩ :=
          contentLoop_sound (c :: rest) [] cont hh uu hcl
        refine ⟨[], d, w, url, rest4, ?_, hd, hdc, hw, hwc, huu ▸ hshape⟩
        rw [hldec]
        simp
      · rename_i hcl
        obtain ⟨pre, content, w, url, post, hdec, hc1, hc2, hw1, hw2, hshape⟩ :=
          ih r h
        exact ⟨c :: pre, content, w, url, post, by rw [hdec]; simp, hc1, hc2, hw1, hw2, hshape⟩

lemma hasMatch_space (t : List Char) (h : HasMatch t) : ' ' ∈ t := by
  obtain ⟨pre, content, w, url, post, heq, _⟩ := h
  rw [heq]
  simp

/-- Claim C7: on the literal forwarded-post input the extractor returns the
expected display line and raw content, and on every input admitting no
decomposition into the pattern (description, space, at-handle, space dash
space, url) the extractor returns nothing. -/
theorem claim7_extract :
    extract_tweet_info (cs "Bitcoin is pumping @cryptoguy - https://x.com/abc") =
      some (cs "Bitcoin is pumping — @cryptoguy 🔗 (https://x.com/abc)",
        cs "Bitcoin is pumping") ∧
    ∀ t : List Char, ¬ HasMatch t → extract_tweet_info t = none := by
  constructor
  · decide
  · intro t hnm
    cases hr : reSearch t with
    | none => simp [extract_tweet_info, hr]
    | some r => exact absurd (reSearch_sound t r hr) hnm

/-- Concrete instance of claim C7 on a non-matching input. -/
theorem claim7_extract_witness :
    ¬ HasMatch (cs "hello") ∧ extract_tweet_info (cs "hello") = none :=
  have hnm : ¬ HasMatch (cs "hello") :=
    fun h => absurd (hasMatch_space _ h) (by decide)
  ⟨hnm, claim7_extract.2 (cs "hello") hnm⟩
